import Mathlib

/-!
Verification development for the threshold-secret reconstruction engine in
src/app.js.  The JavaScript source is shallowly embedded: BigInt values become
Int, strings become List Char, thrown exceptions become Except JsError, and
the JS Map (which iterates in insertion order) becomes an association list
updated in place.  JS BigInt division truncates toward zero, which is Int.tdiv.
-/

/-- Error kinds observable from the embedded code.  invalidDigit models the two
Error values thrown by decodeFromBase's manual loop; syntaxError models the
native SyntaxError thrown by the BigInt conversion on the base-16 path;
rangeError models the native RangeError thrown by BigInt division by zero;
noValidCandidates models the Error thrown by findSecretWithMinimumRoots when
the frequency map is empty. -/
inductive JsError where
  | invalidDigit
  | syntaxError
  | rangeError
  | noValidCandidates
deriving DecidableEq

/-- A decoded share: x is the share index, y the decoded value. -/
structure Point where
  x : Int
  y : Int
deriving DecidableEq

/-- Result record returned by findSecretWithMinimumRoots. -/
structure RecoveryResult where
  secret : Int
  frequency : Nat
  totalCombinations : Nat
deriving DecidableEq

deriving instance DecidableEq for Except

/-- JS String.prototype.toLowerCase restricted to the ASCII simple case
mapping, applied characterwise (src/app.js line 21). -/
def jsToLower (c : Char) : Char :=
  if 'A' ≤ c ∧ c ≤ 'Z' then Char.ofNat (c.toNat + 32) else c

/-- Digit classification of the manual decoding loop (src/app.js lines 27-33):
characters 0-9 map to 0..9, a-z map to 10..35, anything else throws. -/
def digitValueOfChar (digit : Char) : Except JsError Nat :=
  if '0' ≤ digit ∧ digit ≤ '9' then Except.ok (digit.toNat - 48)
  else if 'a' ≤ digit ∧ digit ≤ 'z' then Except.ok (digit.toNat - 97 + 10)
  else Except.error JsError.invalidDigit

/-- The manual accumulation loop of decodeFromBase (src/app.js lines 23-40):
result = result * base + digitValue, throwing when a digit value reaches the
base (line 35). -/
def decodeLoop (base : Nat) : Int → List Char → Except JsError Int
  | result, [] => Except.ok result
  | result, digit :: rest =>
    match digitValueOfChar digit with
    | Except.error e => Except.error e
    | Except.ok digitValue =>
      if digitValue ≥ base then Except.error JsError.invalidDigit
      else decodeLoop base (result * base + digitValue) rest

/-- StrWhiteSpace characters of the ECMAScript StringIntegerLiteral grammar:
WhiteSpace and LineTerminator code points, which BigInt string conversion
strips at either end of the literal. -/
def isStrWhiteSpaceChar (c : Char) : Bool :=
  c == ' ' || c.toNat == 9 || c.toNat == 10 || c.toNat == 11 || c.toNat == 12 ||
  c.toNat == 13 || c.toNat == 160 || c.toNat == 0x1680 ||
  (0x2000 ≤ c.toNat && c.toNat ≤ 0x200a) || c.toNat == 0x2028 ||
  c.toNat == 0x2029 || c.toNat == 0x202f || c.toNat == 0x205f ||
  c.toNat == 0x3000 || c.toNat == 0xfeff

/-- Remove trailing StrWhiteSpace characters. -/
def dropTrailingWhiteSpace (value : List Char) : List Char :=
  (value.reverse.dropWhile isStrWhiteSpaceChar).reverse

/-- Hexadecimal digit test of the HexDigits production (both cases). -/
def isHexDigitChar (c : Char) : Bool :=
  ('0' ≤ c && c ≤ '9') || ('a' ≤ c && c ≤ 'f') || ('A' ≤ c && c ≤ 'F')

/-- Numeric value of a hexadecimal digit character. -/
def hexDigitValue (c : Char) : Nat :=
  if '0' ≤ c && c ≤ '9' then c.toNat - 48
  else if 'a' ≤ c && c ≤ 'f' then c.toNat - 87
  else c.toNat - 55

/-- Model of the JS expression BigInt of the concatenation of 0x and value
(src/app.js line 16).  Per StringToBigInt, trailing whitespace after the hex
digits is permitted, the digit run must be nonempty, and any other character
raises a SyntaxError.  Leading whitespace cannot occur because the string
starts with the prepended 0x prefix. -/
def bigIntOfHexLiteral (value : List Char) : Except JsError Int :=
  let digits := dropTrailingWhiteSpace value
  if digits.isEmpty then Except.error JsError.syntaxError
  else if digits.all isHexDigitChar then
    Except.ok (digits.foldl (fun r c => r * 16 + hexDigitValue c) 0)
  else Except.error JsError.syntaxError

/-- decodeFromBase (src/app.js lines 11-43): base 16 goes through the BigInt
hex-literal conversion; every other base runs the manual loop over the
lowercased characters. -/
def decodeFromBase (value : List Char) (base : Nat) : Except JsError Int :=
  if base = 16 then bigIntOfHexLiteral value
  else decodeLoop base 0 (value.map jsToLower)

/-- The recursive backtracking of generateCombinations (src/app.js lines
103-123), with the implicit call depth made explicit as fuel equal to
elements.length - startIndex.  When the current combination reaches the target
size a copy is emitted; otherwise the loop body for index startIndex
contributes the branch that pushes elements[startIndex], and the remaining
loop iterations are exactly the recursive call at startIndex + 1 with the
combination unchanged (its size test re-fails). -/
def backtrackAux (elements : List Point) (combinationSize : Nat) :
    Nat → Nat → List Point → List (List Point)
  | fuel, startIndex, currentCombination =>
    if currentCombination.length = combinationSize then [currentCombination]
    else
      match fuel with
      | 0 => []
      | fuel + 1 =>
        match elements.get? startIndex with
        | some e =>
          backtrackAux elements combinationSize fuel (startIndex + 1)
              (currentCombination ++ [e])
            ++ backtrackAux elements combinationSize fuel (startIndex + 1)
              currentCombination
        | none => []

/-- generateCombinations (src/app.js lines 103-123). -/
def generateCombinations (elements : List Point) (combinationSize : Nat) :
    List (List Point) :=
  backtrackAux elements combinationSize elements.length 0 []

/-- One execution of the inner polynomial-multiplication loop of
performLagrangeInterpolation (src/app.js lines 77-81): a fresh zero array of
length numberOfPoints, then for k = 0 .. numberOfPoints - 2 the assignments
tempPolynomial[k + 1] := basisPolynomial[k] and
tempPolynomial[k] := basisPolynomial[k] * (-xj), in that order.  The second
assignment of iteration k + 1 overwrites the first assignment of iteration k,
exactly as in the source. -/
def polyMulStep (numberOfPoints : Nat) (basisPolynomial : List Int) (xj : Int) :
    List Int :=
  (List.range (numberOfPoints - 1)).foldl
    (fun tempPolynomial k =>
      (tempPolynomial.set (k + 1) (basisPolynomial.getD k 0)).set k
        (basisPolynomial.getD k 0 * (-xj)))
    (List.replicate numberOfPoints 0)

/-- The inner j-loop of performLagrangeInterpolation (src/app.js lines 70-84)
for the point at index ip.1: the basis polynomial starts as [1, 0, ...] and is
multiplied by (x - xj) for every index j different from ip.1 while the
denominator accumulates (xi - xj). -/
def basisDenomOf (dataPoints : List Point) (ip : Nat × Point) :
    List Int × Int :=
  dataPoints.enum.foldl
    (fun acc jp =>
      if ip.1 = jp.1 then acc
      else (polyMulStep dataPoints.length acc.1 jp.2.x,
            acc.2 * (ip.2.x - jp.2.x)))
    ((List.replicate dataPoints.length 0).set 0 1, 1)

/-- One iteration of the outer i-loop of performLagrangeInterpolation
(src/app.js lines 60-90): build the basis polynomial and denominator, then add
(yi * basis[k]) / denominator to every coefficient, a BigInt division that
truncates toward zero and throws a RangeError when the denominator is zero
(the embedding surfaces the throw before the per-coefficient loop, since the
first division of that loop would raise it). -/
def lagrangeStep (dataPoints : List Point) (polynomialCoefficients : List Int)
    (ip : Nat × Point) : Except JsError (List Int) :=
  let bd := basisDenomOf dataPoints ip
  if bd.2 = 0 then Except.error JsError.rangeError
  else Except.ok (polynomialCoefficients.zipWith
    (fun c b => c + Int.tdiv (ip.2.y * b) bd.2) bd.1)

/-- performLagrangeInterpolation (src/app.js lines 55-93): fold the per-point
step over all points, starting from an all-zero coefficient array. -/
def performLagrangeInterpolation (dataPoints : List Point) :
    Except JsError (List Int) :=
  dataPoints.enum.foldlM (lagrangeStep dataPoints)
    (List.replicate dataPoints.length 0)

/-- Insertion-order-preserving update of the JS Map used as frequency tally
(src/app.js line 149): an existing key keeps its position and gets its count
incremented; a new key is appended with count 1. -/
def updateTally : List (Int × Nat) → Int → List (Int × Nat)
  | [], key => [(key, 1)]
  | (k, c) :: rest, key =>
    if k = key then (k, c + 1) :: rest else (k, c) :: updateTally rest key

/-- Count stored for a key in the tally (JS Map.get with default 0). -/
def lookupCount : List (Int × Nat) → Int → Nat
  | [], _ => 0
  | (k, c) :: rest, key => if k = key then c else lookupCount rest key

/-- The reduce of src/app.js lines 165-167: fold over the remaining entries
keeping the current entry only when its count is strictly greater, so the
first entry with the maximal count wins. -/
def pickMostFrequent (first : Int × Nat) (rest : List (Int × Nat)) :
    Int × Nat :=
  rest.foldl
    (fun mostFrequent current =>
      if current.2 > mostFrequent.2 then current else mostFrequent)
    first

/-- findSecretWithMinimumRoots (src/app.js lines 133-182).  Every size-k
combination is interpolated inside a try/catch: a RangeError from the
interpolation, or the TypeError from calling toString on the undefined
constant term of an empty coefficient array, is caught and the combination is
skipped.  An empty frequency map raises the no-valid-secrets error; otherwise
the reduce picks the winner and the result records the winner, its stored
frequency, and the number of combinations. -/
def findSecretWithMinimumRoots (allRoots : List Point) (k : Nat) :
    Except JsError RecoveryResult :=
  let allCombinations := generateCombinations allRoots k
  let secretFrequencyMap := allCombinations.foldl
    (fun tally rootCombination =>
      match performLagrangeInterpolation rootCombination with
      | Except.error _ => tally
      | Except.ok [] => tally
      | Except.ok (constantTerm :: _) => updateTally tally constantTerm)
    []
  match secretFrequencyMap with
  | [] => Except.error JsError.noValidCandidates
  | first :: rest =>
    let mostCommon := pickMostFrequent first rest
    Except.ok
      { secret := mostCommon.1
        frequency := lookupCount secretFrequencyMap mostCommon.1
        totalCombinations := allCombinations.length }

/-!  Reference definitions used to state the claims.  They are mathematical
companions of the embedded code, not part of the source. -/

/-- Structural enumeration of the size-k combinations of a list, in the order
produced by index-lexicographic backtracking: combinations containing the
head first. -/
def combos {α : Type} : Nat → List α → List (List α)
  | 0, _ => [[]]
  | _ + 1, [] => []
  | k + 1, a :: t => (combos k t).map (fun c => a :: c) ++ combos (k + 1) t

/-- Evaluation of a coefficient list at a point, index i holding the
coefficient of x to the i. -/
def evalPoly (coefficients : List Int) (x : Int) : Int :=
  coefficients.foldr (fun c acc => c + x * acc) 0

/-- Digit character of a digit value below 36, lowercase alphabet. -/
def encodeDigit (d : Nat) : Char :=
  if d < 10 then Char.ofNat (48 + d) else Char.ofNat (87 + d)

/-- Little-endian base-b digit values of v, with explicit fuel. -/
def toDigitsRev (b : Nat) : Nat → Nat → List Nat
  | 0, _ => []
  | fuel + 1, v => if v = 0 then [] else v % b :: toDigitsRev b fuel (v / b)

/-- Standard base-b digit-string representation of a natural number: the
inverse helper the specification uses to build fixtures. -/
def encodeToBase (b v : Nat) : List Nat :=
  if v = 0 then [0] else (toDigitsRev b v v).reverse

/-- Standard base-b digit string of v. -/
def encodeToBaseChars (b v : Nat) : List Char :=
  (encodeToBase b v).map encodeDigit

/-- Value of a little-endian digit list. -/
def ofDigitsNat (b : Nat) : List Nat → Nat
  | [] => 0
  | d :: rest => d + b * ofDigitsNat b rest

/-- A character the decoder must reject for the given base: case-insensitively
outside 0-9a-z, or with digit value at least the base. -/
def isBadChar (base : Nat) (c : Char) : Bool :=
  match digitValueOfChar (jsToLower c) with
  | Except.error _ => true
  | Except.ok d => decide (d ≥ base)

/-- Same rejection test on an already-lowercased character, mirroring the
body of the manual decoding loop. -/
def isBadMapped (base : Nat) (c : Char) : Bool :=
  match digitValueOfChar c with
  | Except.error _ => true
  | Except.ok d => decide (d ≥ base)

/-- The candidate constant term a single combination contributes, when its
interpolation does not throw and yields a nonempty coefficient list. -/
def subsetCandidate (combination : List Point) : Option Int :=
  match performLagrangeInterpolation combination with
  | Except.error _ => none
  | Except.ok [] => none
  | Except.ok (constantTerm :: _) => some constantTerm

/-- The candidates produced across all combinations, in enumeration order,
with failing combinations skipped. -/
def candidatesOf (allRoots : List Point) (k : Nat) : List Int :=
  (generateCombinations allRoots k).filterMap subsetCandidate

/-- The tally built from a candidate list. -/
def tallyOf (candidates : List Int) : List (Int × Nat) :=
  candidates.foldl updateTally []

/-- Number of occurrences of a value in a list of candidates. -/
def countIn : List Int → Int → Nat
  | [], _ => 0
  | a :: rest, key => (if a = key then 1 else 0) + countIn rest key

/-- Index of the first occurrence of a value. -/
def firstIdx : List Int → Int → Nat
  | [], _ => 0
  | a :: rest, key => if a = key then 0 else firstIdx rest key + 1

/-- The distinct values of a list in order of first occurrence. -/
def firstOccur (candidates : List Int) : List Int :=
  candidates.foldl (fun acc c => if c ∈ acc then acc else acc ++ [c]) []

/-- Sum of all counts stored in a tally. -/
def sumCounts (tally : List (Int × Nat)) : Nat :=
  (tally.map Prod.snd).sum

/-- Pointwise sum of two coefficient vectors. -/
def vecAdd (u v : List Int) : List Int := u.zipWith (fun a b => a + b) v

/-- Closed form of the basis polynomial the source actually builds: because
the second assignment of each inner-loop iteration overwrites the shift
performed by the previous iteration, for three or more points only the
constant term (the product of the negated abscissas) survives; with two
points the single multiplication is still correct; with one point the basis
stays [1]. -/
def basisClosedForm (n : Nat) (prodNegX : Int) : List Int :=
  if n = 0 then []
  else if n = 1 then [prodNegX]
  else if n = 2 then [prodNegX, 1]
  else prodNegX :: List.replicate (n - 1) 0

/-- Closed form of the truncated contribution of one point, given the other
points of the combination. -/
def contribClosed (n : Nat) (p : Point) (others : List Point) : List Int :=
  let prodNegX := (others.map (fun q => -q.x)).prod
  let denominator := (others.map (fun q => p.x - q.x)).prod
  (basisClosedForm n prodNegX).map (fun b => Int.tdiv (p.y * b) denominator)

/-- Closed form of the whole interpolation in the duplicate-free case. -/
def lagrangeClosed (l : List Point) : List Int :=
  (l.map (fun p => contribClosed l.length p (l.erase p))).foldl vecAdd
    (List.replicate l.length 0)

theorem combos_zero {α : Type} (l : List α) : combos 0 l = [[]] := by
  cases l <;> rfl

theorem backtrackAux_eq (elements : List Point) (size : Nat) :
    ∀ (fuel startIndex : Nat) (cur : List Point),
      fuel = elements.length - startIndex → cur.length ≤ size →
      backtrackAux elements size fuel startIndex cur
        = (combos (size - cur.length) (elements.drop startIndex)).map
            (fun c => cur ++ c) := by
  intro fuel
  induction fuel with
  | zero =>
    intro startIndex cur hfuel hlen
    by_cases heq : cur.length = size
    · have h0 : size - cur.length = 0 := by omega
      simp [backtrackAux, heq, h0, combos]
    · have hdrop : elements.drop startIndex = [] := by
        rw [List.drop_eq_nil_iff]
        omega
      obtain ⟨m, hm⟩ : ∃ m, size - cur.length = m + 1 := ⟨size - cur.length - 1, by omega⟩
      simp [backtrackAux, heq, hdrop, hm, combos]
  | succ fuel ih =>
    intro startIndex cur hfuel hlen
    by_cases heq : cur.length = size
    · have h0 : size - cur.length = 0 := by omega
      simp [backtrackAux, heq, h0, combos]
    · have hstart : startIndex < elements.length := by omega
      have hget : elements.get? startIndex = some (elements.get ⟨startIndex, hstart⟩) :=
        List.get?_eq_get hstart
      simp only [backtrackAux, if_neg heq, hget]
      rw [ih (startIndex + 1) (cur ++ [elements.get ⟨startIndex, hstart⟩])
            (by omega) (by simp [List.length_append]; omega),
          ih (startIndex + 1) cur (by omega) hlen]
      have hdrop : elements.drop startIndex
          = elements.get ⟨startIndex, hstart⟩ :: elements.drop (startIndex + 1) := by
        rw [List.drop_eq_getElem_cons hstart]
        simp [List.get_eq_getElem]
      rw [hdrop]
      obtain ⟨m, hm⟩ : ∃ m, size - cur.length = m + 1 := ⟨size - cur.length - 1, by omega⟩
      have hm2 : size - (cur ++ [elements.get ⟨startIndex, hstart⟩]).length = m := by
        simp [List.length_append]
        omega
      rw [hm, hm2]
      simp only [combos, List.map_append, List.map_map]
      congr 1
      apply List.map_congr_left
      intro c _
      simp

theorem generateCombinations_eq_combos (elements : List Point) (size : Nat) :
    generateCombinations elements size = combos size elements := by
  unfold generateCombinations
  rw [backtrackAux_eq elements size elements.length 0 [] (by omega) (by simp)]
  simp

theorem length_combos {α : Type} : ∀ (k : Nat) (l : List α),
    (combos k l).length = Nat.choose l.length k := by
  intro k l
  induction l generalizing k with
  | nil =>
    cases k with
    | zero => simp [combos]
    | succ k => simp [combos, Nat.choose_zero_succ]
  | cons a t ih =>
    cases k with
    | zero => simp [combos]
    | succ k =>
      simp [combos, ih, Nat.choose_succ_succ]

theorem mem_combos {α : Type} : ∀ {k : Nat} {l : List α} {c : List α},
    c ∈ combos k l → c.length = k ∧ c.Sublist l := by
  intro k l
  induction l generalizing k with
  | nil =>
    intro c hc
    cases k with
    | zero =>
      simp [combos] at hc
      subst hc
      simp
    | succ k => simp [combos] at hc
  | cons a t ih =>
    intro c hc
    cases k with
    | zero =>
      simp [combos] at hc
      subst hc
      simp
    | succ k =>
      simp only [combos, List.mem_append, List.mem_map] at hc
      rcases hc with ⟨c', hc', rfl⟩ | hc
      · obtain ⟨hl, hs⟩ := ih hc'
        exact ⟨by simp [hl], List.Sublist.cons₂ a hs⟩
      · obtain ⟨hl, hs⟩ := ih hc
        exact ⟨hl, hs.cons a⟩

theorem combos_eq_nil {α : Type} : ∀ (l : List α) (k : Nat),
    l.length < k → combos k l = [] := by
  intro l
  induction l with
  | nil =>
    intro k hk
    obtain ⟨m, rfl⟩ : ∃ m, k = m + 1 := ⟨k - 1, by omega⟩
    simp [combos]
  | cons a t ih =>
    intro k hk
    obtain ⟨m, rfl⟩ : ∃ m, k = m + 1 := ⟨k - 1, by omega⟩
    simp only [List.length_cons] at hk
    simp [combos, ih m (by omega), ih (m + 1) (by omega)]

theorem combos_map {α β : Type} (f : α → β) : ∀ (k : Nat) (l : List α),
    combos k (l.map f) = (combos k l).map (List.map f) := by
  intro k l
  induction l generalizing k with
  | nil => cases k <;> simp [combos]
  | cons a t ih =>
    cases k with
    | zero => simp [combos]
    | succ k =>
      simp [combos, ih, List.map_append, List.map_map]

theorem map_getD_range (l : List Point) :
    (List.range l.length).map (fun i => l.getD i ⟨0, 0⟩) = l := by
  induction l with
  | nil => simp
  | cons a t ih =>
    rw [List.length_cons, List.range_succ_eq_map, List.map_cons, List.map_map]
    have hcomp : ((fun i => (a :: t).getD i (⟨0, 0⟩ : Point)) ∘ Nat.succ)
        = fun i => t.getD i ⟨0, 0⟩ := by
      funext i
      rfl
    rw [hcomp, ih]
    rfl

theorem pairwise_lex_combos : ∀ (l : List Nat), l.Pairwise (· < ·) →
    ∀ (k : Nat), (combos k l).Pairwise (List.Lex (· < ·)) := by
  intro l
  induction l with
  | nil =>
    intro _ k
    cases k <;> simp [combos]
  | cons a t ih =>
    intro hpw k
    rw [List.pairwise_cons] at hpw
    obtain ⟨ha, hpt⟩ := hpw
    cases k with
    | zero => simp [combos]
    | succ k =>
      simp only [combos]
      rw [List.pairwise_append]
      refine ⟨List.Pairwise.map _ (fun c₁ c₂ h => List.Lex.cons h) (ih hpt k),
        ih hpt (k + 1), ?_⟩
      intro x hx y hy
      simp only [List.mem_map] at hx
      obtain ⟨c, _, rfl⟩ := hx
      obtain ⟨hylen, hysub⟩ := mem_combos hy
      cases y with
      | nil => simp at hylen
      | cons b s => exact List.Lex.rel (ha b (hysub.subset (List.mem_cons_self b s)))

/-- C1: on the points (1,1), (2,4), (4,16), which have pairwise distinct
x-values and lie exactly on the integer polynomial x^2 (coefficient vector
[0, 0, 1]), performLagrangeInterpolation returns [-1, 0, 0]: the per-term
truncating integer divisions (8/3 and 32/6) corrupt the constant term and the
overwritten polynomial-multiply loop zeroes every higher coefficient, so the
code does not return the polynomial's coefficient vector and performs no final
exact-division check. -/
theorem lagrange_wrong_on_consistent_points :
    (∀ p ∈ [Point.mk 1 1, Point.mk 2 4, Point.mk 4 16], evalPoly [0, 0, 1] p.x = p.y)
  ∧ ([Point.mk 1 1, Point.mk 2 4, Point.mk 4 16].map Point.x).Nodup
  ∧ performLagrangeInterpolation [Point.mk 1 1, Point.mk 2 4, Point.mk 4 16]
      = Except.ok [-1, 0, 0]
  ∧ (Except.ok [-1, 0, 0] : Except JsError (List Int)) ≠ Except.ok [0, 0, 1] := by
  decide

/-- C2: on the four points (1,1), (2,4), (3,9), (4,16), all lying exactly on
the degree-2 integer polynomial x^2, recovery with k = 3 does not make every
size-3 subset agree: the subset with x-values 1,2,4 yields constant term -1
while the other three yield 0, so the returned frequency is 3, not
totalSubsets = C(4,3) = 4. -/
theorem recover_inconsistent_on_consistent_points :
    (∀ p ∈ [Point.mk 1 1, Point.mk 2 4, Point.mk 3 9, Point.mk 4 16],
        evalPoly [0, 0, 1] p.x = p.y)
  ∧ findSecretWithMinimumRoots [Point.mk 1 1, Point.mk 2 4, Point.mk 3 9, Point.mk 4 16] 3
      = Except.ok { secret := 0, frequency := 3, totalCombinations := 4 }
  ∧ (3 : Nat) ≠ Nat.choose 4 3 := by
  decide

/-- C4 counterexample: with one point and k = 0 the enumeration does not fail
at all: it succeeds and returns the single empty combination. -/
theorem generateCombinations_zero_succeeds :
    generateCombinations [Point.mk 1 1] 0 = [[]]
  ∧ ([[]] : List (List Point)) ≠ [] := by
  decide

/-- C4 amended: generateCombinations never fails; when k exceeds the number of
points it returns an empty list of combinations, and k = 0 yields the single
empty combination. -/
theorem generateCombinations_total (pts : List Point) (k : Nat) :
    (pts.length < k → generateCombinations pts k = [])
  ∧ generateCombinations pts 0 = [[]] := by
  constructor
  · intro h
    rw [generateCombinations_eq_combos]
    exact combos_eq_nil pts k h
  · rw [generateCombinations_eq_combos]
    exact combos_zero pts

/-- Witness for the amended C4 at a concrete input. -/
theorem generateCombinations_total_witness :
    ([Point.mk 1 1] : List Point).length < 2
  ∧ generateCombinations [Point.mk 1 1] 2 = []
  ∧ generateCombinations [Point.mk 1 1] 0 = [[]] :=
  ⟨by decide, (generateCombinations_total [Point.mk 1 1] 2).1 (by decide),
   (generateCombinations_total [Point.mk 1 1] 0).2⟩

/-- C6: for 1 <= k <= n the enumerator produces exactly C(n,k) combinations,
each of size k and preserving the input order (a sublist of the input), and
the sequence equals the image of the index combinations of range n taken in
lexicographically increasing order of the chosen original indices. -/
theorem generateCombinations_spec (l : List Point) (k : Nat)
    (h1 : 1 ≤ k) (h2 : k ≤ l.length) :
    (generateCombinations l k).length = Nat.choose l.length k
  ∧ (∀ c ∈ generateCombinations l k, c.length = k ∧ c.Sublist l)
  ∧ generateCombinations l k
      = (combos k (List.range l.length)).map (fun ix => ix.map (fun i => l.getD i ⟨0, 0⟩))
  ∧ (combos k (List.range l.length)).Pairwise (List.Lex (· < ·)) := by
  refine ⟨?_, ?_, ?_, pairwise_lex_combos (List.range l.length) (List.pairwise_lt_range _) k⟩
  · rw [generateCombinations_eq_combos]
    exact length_combos k l
  · intro c hc
    rw [generateCombinations_eq_combos] at hc
    exact mem_combos hc
  · rw [generateCombinations_eq_combos]
    conv_lhs => rw [← map_getD_range l]
    rw [combos_map]

/-- Witness for C6 at a concrete input with k = 2 and n = 3. -/
theorem generateCombinations_spec_witness :
    (1 ≤ 2 ∧ 2 ≤ ([Point.mk 1 1, Point.mk 2 4, Point.mk 3 9] : List Point).length)
  ∧ ((generateCombinations [Point.mk 1 1, Point.mk 2 4, Point.mk 3 9] 2).length
        = Nat.choose ([Point.mk 1 1, Point.mk 2 4, Point.mk 3 9] : List Point).length 2
      ∧ (∀ c ∈ generateCombinations [Point.mk 1 1, Point.mk 2 4, Point.mk 3 9] 2,
          c.length = 2 ∧ c.Sublist [Point.mk 1 1, Point.mk 2 4, Point.mk 3 9])
      ∧ generateCombinations [Point.mk 1 1, Point.mk 2 4, Point.mk 3 9] 2
          = (combos 2 (List.range ([Point.mk 1 1, Point.mk 2 4, Point.mk 3 9] : List Point).length)).map
              (fun ix => ix.map (fun i => [Point.mk 1 1, Point.mk 2 4, Point.mk 3 9].getD i ⟨0, 0⟩))
      ∧ (combos 2 (List.range ([Point.mk 1 1, Point.mk 2 4, Point.mk 3 9] : List Point).length)).Pairwise
          (List.Lex (· < ·))) :=
  ⟨⟨by decide, by decide⟩,
   generateCombinations_spec [Point.mk 1 1, Point.mk 2 4, Point.mk 3 9] 2 (by decide) (by decide)⟩

theorem encodeDigit_spec : ∀ d : Nat, d < 36 →
    jsToLower (encodeDigit d) = encodeDigit d
  ∧ digitValueOfChar (encodeDigit d) = Except.ok d := by
  decide

theorem encodeDigit_hex : ∀ d : Nat, d < 16 →
    isHexDigitChar (encodeDigit d) = true
  ∧ hexDigitValue (encodeDigit d) = d
  ∧ isStrWhiteSpaceChar (encodeDigit d) = false := by
  decide

theorem decodeLoop_encode (b : Nat) (hb : b ≤ 36) :
    ∀ (ds : List Nat) (a : Nat), (∀ d ∈ ds, d < b) →
    decodeLoop b (a : Int) (ds.map encodeDigit)
      = Except.ok ((ds.foldl (fun r d => r * b + d) a : Nat) : Int) := by
  intro ds
  induction ds with
  | nil => intro a _; rfl
  | cons d rest ih =>
    intro a hd
    have hdb : d < b := hd d (List.mem_cons_self d rest)
    have hd36 : d < 36 := lt_of_lt_of_le hdb hb
    obtain ⟨_, hdv⟩ := encodeDigit_spec d hd36
    simp only [List.map_cons, decodeLoop, hdv, List.foldl_cons]
    rw [if_neg (by omega : ¬ d ≥ b)]
    rw [show (a : Int) * (b : Int) + (d : Int) = ((a * b + d : Nat) : Int) by push_cast; ring]
    exact ih (a * b + d) (fun d' h' => hd d' (List.mem_cons_of_mem _ h'))

theorem foldl_reverse_ofDigits (b : Nat) :
    ∀ (L : List Nat) (a : Nat), L.reverse.foldl (fun r d => r * b + d) a
      = a * b ^ L.length + ofDigitsNat b L := by
  intro L
  induction L with
  | nil => intro a; simp [ofDigitsNat]
  | cons d T ih =>
    intro a
    simp only [List.reverse_cons, List.foldl_append, List.foldl_cons, List.foldl_nil, ih,
      ofDigitsNat, List.length_cons]
    ring

theorem ofDigitsNat_toDigitsRev (b : Nat) (hb : 2 ≤ b) :
    ∀ (fuel v : Nat), v ≤ fuel → ofDigitsNat b (toDigitsRev b fuel v) = v := by
  intro fuel
  induction fuel with
  | zero =>
    intro v hv
    have h0 : v = 0 := by omega
    subst h0
    rfl
  | succ fuel ih =>
    intro v hv
    by_cases h0 : v = 0
    · subst h0; simp [toDigitsRev, ofDigitsNat]
    · simp only [toDigitsRev, if_neg h0, ofDigitsNat]
      rw [ih (v / b) (by
        have := Nat.div_lt_self (Nat.pos_of_ne_zero h0) (by omega : 1 < b)
        omega)]
      exact Nat.mod_add_div v b

theorem toDigitsRev_lt (b : Nat) (hb : 0 < b) :
    ∀ (fuel v : Nat), ∀ d ∈ toDigitsRev b fuel v, d < b := by
  intro fuel
  induction fuel with
  | zero => intro v d hd; simp [toDigitsRev] at hd
  | succ fuel ih =>
    intro v d hd
    by_cases h0 : v = 0
    · subst h0; simp [toDigitsRev] at hd
    · simp only [toDigitsRev, if_neg h0, List.mem_cons] at hd
      rcases hd with rfl | hd
      · exact Nat.mod_lt v hb
      · exact ih (v / b) d hd

theorem encodeToBase_lt (b v : Nat) (hb : 2 ≤ b) : ∀ d ∈ encodeToBase b v, d < b := by
  intro d hd
  unfold encodeToBase at hd
  by_cases h0 : v = 0
  · simp [h0] at hd
    omega
  · rw [if_neg h0, List.mem_reverse] at hd
    exact toDigitsRev_lt b (by omega) v v d hd

theorem encodeToBase_ne_nil (b v : Nat) : encodeToBase b v ≠ [] := by
  unfold encodeToBase
  by_cases h0 : v = 0
  · simp [h0]
  · rw [if_neg h0]
    obtain ⟨f, hf⟩ : ∃ f, v = f + 1 := ⟨v - 1, by omega⟩
    rw [hf]
    simp [toDigitsRev]

theorem foldl_encodeToBase (b v : Nat) (hb : 2 ≤ b) :
    (encodeToBase b v).foldl (fun r d => r * b + d) 0 = v := by
  unfold encodeToBase
  by_cases h0 : v = 0
  · simp [h0]
  · rw [if_neg h0, foldl_reverse_ofDigits, ofDigitsNat_toDigitsRev b hb v v le_rfl]
    simp

theorem foldl_int_cast (b : Nat) : ∀ (ds : List Nat) (a : Nat),
    ds.foldl (fun (r : Int) (d : Nat) => r * (b : Int) + (d : Int)) (a : Int)
      = ((ds.foldl (fun r d => r * b + d) a : Nat) : Int) := by
  intro ds
  induction ds with
  | nil => intro a; rfl
  | cons d rest ih =>
    intro a
    simp only [List.foldl_cons]
    rw [show (a : Int) * (b : Int) + (d : Int) = ((a * b + d : Nat) : Int) by push_cast; ring]
    exact ih (a * b + d)

theorem dropTrailing_of_no_ws (l : List Char)
    (h : ∀ c ∈ l, isStrWhiteSpaceChar c = false) :
    dropTrailingWhiteSpace l = l := by
  unfold dropTrailingWhiteSpace
  have hrev : l.reverse.dropWhile isStrWhiteSpaceChar = l.reverse := by
    cases hr : l.reverse with
    | nil => rfl
    | cons c t =>
      have hc : c ∈ l := by
        rw [← List.mem_reverse, hr]
        exact List.mem_cons_self c t
      rw [List.dropWhile_cons, h c hc]
      simp
  rw [hrev, List.reverse_reverse]

theorem bigIntOfHexLiteral_of_digits (l : List Char)
    (hne : l ≠ []) (hhex : ∀ c ∈ l, isHexDigitChar c = true)
    (hnws : ∀ c ∈ l, isStrWhiteSpaceChar c = false) :
    bigIntOfHexLiteral l
      = Except.ok (l.foldl (fun (r : Int) c => r * 16 + hexDigitValue c) 0) := by
  unfold bigIntOfHexLiteral
  simp only [dropTrailing_of_no_ws l hnws]
  rw [if_neg (by simp [List.isEmpty_iff, hne]), if_pos (by rw [List.all_eq_true]; exact hhex)]

/-- C9: for every v >= 0 and base b in [2,36], decoding the standard base-b
digit-string representation of v yields exactly v, with no fixed-width
precision loss: the result is the exact integer value of the digit string. -/
theorem decode_encode (v b : Nat) (h2 : 2 ≤ b) (h36 : b ≤ 36) :
    decodeFromBase (encodeToBaseChars b v) b = Except.ok (v : Int) := by
  unfold decodeFromBase encodeToBaseChars
  by_cases hb : b = 16
  · subst hb
    rw [if_pos rfl]
    rw [bigIntOfHexLiteral_of_digits _
      (by
        intro hmap
        exact encodeToBase_ne_nil 16 v (List.map_eq_nil_iff.mp hmap))
      (by
        intro c hc
        rw [List.mem_map] at hc
        obtain ⟨d, hd, rfl⟩ := hc
        exact (encodeDigit_hex d (encodeToBase_lt 16 v (by omega) d hd)).1)
      (by
        intro c hc
        rw [List.mem_map] at hc
        obtain ⟨d, hd, rfl⟩ := hc
        exact (encodeDigit_hex d (encodeToBase_lt 16 v (by omega) d hd)).2.2)]
    rw [List.foldl_map]
    rw [List.foldl_ext _ (fun (r : Int) (d : Nat) => r * ((16 : Nat) : Int) + (d : Int)) 0
      (by
        intro a d hd
        rw [(encodeDigit_hex d (encodeToBase_lt 16 v (by omega) d hd)).2.1]
        norm_num)]
    rw [show ((0 : Int) = ((0 : Nat) : Int)) by norm_num, foldl_int_cast,
      foldl_encodeToBase 16 v (by omega)]
  · rw [if_neg hb]
    rw [List.map_map]
    rw [show (jsToLower ∘ encodeDigit) = fun d => jsToLower (encodeDigit d) from rfl]
    rw [List.map_congr_left (fun d hd =>
      (encodeDigit_spec d (lt_of_lt_of_le (encodeToBase_lt b v h2 d hd) h36)).1)]
    rw [show ((0 : Int) = ((0 : Nat) : Int)) by norm_num]
    rw [decodeLoop_encode b h36 (encodeToBase b v) 0 (encodeToBase_lt b v h2)]
    rw [foldl_encodeToBase b v h2]

/-- Witness for C9 at v = 171, b = 16, the spec's hex fixture ab. -/
theorem decode_encode_witness :
    2 ≤ 16 ∧ 16 ≤ 36
  ∧ decodeFromBase (encodeToBaseChars 16 171) 16 = Except.ok ((171 : Nat) : Int) :=
  ⟨by decide, by decide, decode_encode 171 16 (by decide) (by decide)⟩

theorem digitValueOfChar_error (c : Char) (e : JsError)
    (h : digitValueOfChar c = Except.error e) : e = JsError.invalidDigit := by
  unfold digitValueOfChar at h
  split_ifs at h <;> simp_all

theorem decodeLoop_error_iff (b : Nat) : ∀ (cs : List Char) (a : Int),
    decodeLoop b a cs = Except.error JsError.invalidDigit
      ↔ ∃ c ∈ cs, isBadMapped b c = true := by
  intro cs
  induction cs with
  | nil => intro a; simp [decodeLoop]
  | cons c rest ih =>
    intro a
    cases hdv : digitValueOfChar c with
    | error e =>
      have he : e = JsError.invalidDigit := digitValueOfChar_error c e hdv
      subst he
      simp only [decodeLoop, hdv]
      constructor
      · intro _
        exact ⟨c, List.mem_cons_self c rest, by simp [isBadMapped, hdv]⟩
      · intro _
        trivial
    | ok d =>
      by_cases hbd : d ≥ b
      · simp only [decodeLoop, hdv, if_pos hbd]
        constructor
        · intro _
          exact ⟨c, List.mem_cons_self c rest, by simp [isBadMapped, hdv]; omega⟩
        · intro _
          trivial
      · simp only [decodeLoop, hdv, if_neg hbd]
        rw [ih]
        constructor
        · rintro ⟨c', hc', hbad⟩
          exact ⟨c', List.mem_cons_of_mem _ hc', hbad⟩
        · rintro ⟨c', hc', hbad⟩
          rcases List.mem_cons.mp hc' with rfl | h'
          · exfalso
            simp [isBadMapped, hdv] at hbad
            omega
          · exact ⟨c', h', hbad⟩

theorem decodeLoop_error_kind (b : Nat) : ∀ (cs : List Char) (a : Int) (e : JsError),
    decodeLoop b a cs = Except.error e → e = JsError.invalidDigit := by
  intro cs
  induction cs with
  | nil => intro a e h; simp [decodeLoop] at h
  | cons c rest ih =>
    intro a e h
    cases hdv : digitValueOfChar c with
    | error e' =>
      have he : e' = JsError.invalidDigit := digitValueOfChar_error c e' hdv
      subst he
      simp only [decodeLoop, hdv] at h
      injection h with h2
      exact h2.symm
    | ok d =>
      by_cases hbd : d ≥ b
      · simp only [decodeLoop, hdv, if_pos hbd] at h
        injection h with h2
        exact h2.symm
      · simp only [decodeLoop, hdv, if_neg hbd] at h
        exact ih _ e h

/-- C5 counterexample: the string consisting of the digit 1 followed by a
space, with base 16, decodes successfully to 1 even though the space is,
case-insensitively, outside 0-9a-z, which the claim says must make decoding
fail with InvalidDigit. -/
theorem decode_space_counterexample :
    isBadChar 16 ' ' = true
  ∧ decodeFromBase [ '1', ' ' ] 16 = Except.ok 1 := by
  decide

/-- C5 amended: for bases in [2,36] other than 16 the decoder fails, always
with InvalidDigit, exactly when some character is case-insensitively outside
0-9a-z or has digit value at least the base.  For base 16 the code instead
converts through BigInt of 0x plus the string, which fails (with a native
SyntaxError, not the decoder's InvalidDigit) exactly when the string, after
discarding trailing whitespace, is empty or contains a character outside the
hexadecimal digits; in particular the digit g with base 16 still fails,
although trailing whitespace is accepted and the empty string is rejected. -/
theorem decode_error_characterization :
    (∀ (s : List Char) (b : Nat), 2 ≤ b → b ≤ 36 → b ≠ 16 →
      ((decodeFromBase s b = Except.error JsError.invalidDigit
          ↔ ∃ c ∈ s, isBadChar b c = true)
        ∧ ∀ e, decodeFromBase s b = Except.error e → e = JsError.invalidDigit))
  ∧ (∀ s : List Char,
      decodeFromBase s 16 = Except.error JsError.syntaxError
        ↔ (dropTrailingWhiteSpace s = []
            ∨ ∃ c ∈ dropTrailingWhiteSpace s, isHexDigitChar c = false))
  ∧ decodeFromBase [ 'g' ] 16 = Except.error JsError.syntaxError := by
  refine ⟨?_, ?_, by decide⟩
  · intro s b _ _ hb16
    unfold decodeFromBase
    rw [if_neg hb16]
    constructor
    · rw [decodeLoop_error_iff]
      constructor
      · rintro ⟨c', hc', hbad⟩
        rw [List.mem_map] at hc'
        obtain ⟨c, hc, rfl⟩ := hc'
        exact ⟨c, hc, hbad⟩
      · rintro ⟨c, hc, hbad⟩
        exact ⟨jsToLower c, List.mem_map_of_mem jsToLower hc, hbad⟩
    · intro e
      exact decodeLoop_error_kind b _ _ e
  · intro s
    unfold decodeFromBase
    rw [if_pos rfl]
    unfold bigIntOfHexLiteral
    by_cases hemp : dropTrailingWhiteSpace s = []
    · simp [hemp]
    · rw [if_neg (by simp [List.isEmpty_iff, hemp])]
      by_cases hall : (dropTrailingWhiteSpace s).all isHexDigitChar
      · rw [if_pos hall]
        rw [List.all_eq_true] at hall
        simp only [reduceCtorEq, false_iff, not_or]
        constructor
        · exact hemp
        · rintro ⟨c, hc, hbad⟩
          rw [hall c hc] at hbad
          cases hbad
      · rw [if_neg hall]
        simp only [true_iff]
        right
        rw [List.all_eq_true] at hall
        push_neg at hall
        obtain ⟨c, hc, hbad⟩ := hall
        exact ⟨c, hc, by simpa using hbad⟩

/-- Witness for the amended C5: base 10 rejects z with InvalidDigit as the
characterization demands. -/
theorem decode_error_characterization_witness :
    2 ≤ 10 ∧ 10 ≤ 36 ∧ 10 ≠ 16
  ∧ decodeFromBase [ 'z' ] 10 = Except.error JsError.invalidDigit :=
  ⟨by decide, by decide, by decide,
    ((decode_error_characterization.1 [ 'z' ] 10 (by decide) (by decide)
      (by decide)).1).mpr ⟨ 'z', List.mem_cons_self _ _, by decide⟩⟩

theorem findSecret_fold_eq : ∀ (l : List (List Point)) (init : List (Int × Nat)),
    l.foldl (fun tally rootCombination =>
      match performLagrangeInterpolation rootCombination with
      | Except.error _ => tally
      | Except.ok [] => tally
      | Except.ok (constantTerm :: _) => updateTally tally constantTerm) init
      = (l.filterMap subsetCandidate).foldl updateTally init := by
  intro l
  induction l with
  | nil => intro init; rfl
  | cons c rest ih =>
    intro init
    rw [List.foldl_cons, List.filterMap_cons]
    unfold subsetCandidate
    cases hc : performLagrangeInterpolation c with
    | error e =>
      simp only [hc]
      exact ih init
    | ok coeffs =>
      cases coeffs with
      | nil =>
        simp only [hc]
        exact ih init
      | cons ct tail =>
        simp only [hc, List.foldl_cons]
        exact ih (updateTally init ct)

theorem findSecret_eq (roots : List Point) (k : Nat) :
    findSecretWithMinimumRoots roots k
      = match tallyOf (candidatesOf roots k) with
        | [] => Except.error JsError.noValidCandidates
        | first :: rest =>
          Except.ok
            { secret := (pickMostFrequent first rest).1
              frequency := lookupCount (tallyOf (candidatesOf roots k))
                  (pickMostFrequent first rest).1
              totalCombinations := (generateCombinations roots k).length } := by
  unfold findSecretWithMinimumRoots tallyOf candidatesOf
  simp only [findSecret_fold_eq]

theorem findSecret_eq_error (roots : List Point) (k : Nat)
    (h : tallyOf (candidatesOf roots k) = []) :
    findSecretWithMinimumRoots roots k = Except.error JsError.noValidCandidates := by
  rw [findSecret_eq, h]

theorem findSecret_eq_ok (roots : List Point) (k : Nat) (first : Int × Nat)
    (rest : List (Int × Nat)) (h : tallyOf (candidatesOf roots k) = first :: rest) :
    findSecretWithMinimumRoots roots k
      = Except.ok
          { secret := (pickMostFrequent first rest).1
            frequency := lookupCount (first :: rest) (pickMostFrequent first rest).1
            totalCombinations := (generateCombinations roots k).length } := by
  rw [findSecret_eq, h]

theorem updateTally_ne_nil (t : List (Int × Nat)) (c : Int) : updateTally t c ≠ [] := by
  cases t with
  | nil => simp [updateTally]
  | cons p rest =>
    obtain ⟨k0, c0⟩ := p
    simp only [updateTally]
    split <;> simp

theorem foldl_updateTally_ne_nil : ∀ (cs : List Int) (t : List (Int × Nat)),
    t ≠ [] → cs.foldl updateTally t ≠ [] := by
  intro cs
  induction cs with
  | nil => intro t ht; exact ht
  | cons c rest ih =>
    intro t _
    rw [List.foldl_cons]
    exact ih (updateTally t c) (updateTally_ne_nil t c)

theorem tallyOf_eq_nil_iff (cs : List Int) : tallyOf cs = [] ↔ cs = [] := by
  constructor
  · intro h
    cases cs with
    | nil => rfl
    | cons c rest =>
      exact absurd (by simpa [tallyOf] using h)
        (foldl_updateTally_ne_nil rest (updateTally [] c) (updateTally_ne_nil [] c))
  · rintro rfl
    rfl

theorem lookupCount_updateTally (t : List (Int × Nat)) (c key : Int) :
    lookupCount (updateTally t c) key
      = lookupCount t key + if c = key then 1 else 0 := by
  induction t with
  | nil =>
    simp only [updateTally, lookupCount]
    by_cases h : c = key <;> simp [h]
  | cons p rest ih =>
    obtain ⟨k0, c0⟩ := p
    by_cases h0 : k0 = c
    · subst h0
      simp only [updateTally, if_pos rfl, lookupCount]
      by_cases hk : k0 = key <;> simp [hk]
    · simp only [updateTally, if_neg h0, lookupCount]
      by_cases hk : k0 = key
      · have hck : ¬ c = key := fun hc => h0 (by rw [hc, hk])
        simp [hk, hck]
      · simp [hk, ih]

theorem foldl_updateTally_lookup : ∀ (cs : List Int) (t : List (Int × Nat)) (key : Int),
    lookupCount (cs.foldl updateTally t) key = lookupCount t key + countIn cs key := by
  intro cs
  induction cs with
  | nil => intro t key; simp [countIn]
  | cons c rest ih =>
    intro t key
    rw [List.foldl_cons, ih (updateTally t c) key, lookupCount_updateTally]
    simp only [countIn]
    by_cases h : c = key <;> simp [h] <;> omega

theorem lookupCount_tallyOf (cs : List Int) (key : Int) :
    lookupCount (tallyOf cs) key = countIn cs key := by
  unfold tallyOf
  rw [foldl_updateTally_lookup]
  simp [lookupCount]

theorem map_fst_updateTally (t : List (Int × Nat)) (c : Int) :
    (updateTally t c).map Prod.fst
      = if c ∈ t.map Prod.fst then t.map Prod.fst else t.map Prod.fst ++ [c] := by
  induction t with
  | nil => simp [updateTally]
  | cons p rest ih =>
    obtain ⟨k0, c0⟩ := p
    by_cases h0 : k0 = c
    · subst h0
      simp [updateTally, List.mem_cons]
    · simp only [updateTally, if_neg h0, List.map_cons, ih]
      by_cases hm : c ∈ rest.map Prod.fst
      · simp [hm, List.mem_cons]
      · have hck : ¬ c = k0 := fun h => h0 h.symm
        simp [hm, List.mem_cons, hck]

theorem map_fst_foldl_updateTally : ∀ (cs : List Int) (t : List (Int × Nat)),
    (cs.foldl updateTally t).map Prod.fst
      = cs.foldl (fun acc c => if c ∈ acc then acc else acc ++ [c]) (t.map Prod.fst) := by
  intro cs
  induction cs with
  | nil => intro t; rfl
  | cons c rest ih =>
    intro t
    rw [List.foldl_cons, List.foldl_cons, ih, map_fst_updateTally]

theorem map_fst_tallyOf (cs : List Int) : (tallyOf cs).map Prod.fst = firstOccur cs := by
  unfold tallyOf firstOccur
  rw [map_fst_foldl_updateTally]
  rfl

theorem mem_foldl_firstOccurStep : ∀ (cs acc : List Int) (a : Int),
    a ∈ cs.foldl (fun acc c => if c ∈ acc then acc else acc ++ [c]) acc
      ↔ a ∈ acc ∨ a ∈ cs := by
  intro cs
  induction cs with
  | nil => intro acc a; simp
  | cons c rest ih =>
    intro acc a
    rw [List.foldl_cons, ih]
    by_cases hc : c ∈ acc
    · rw [if_pos hc]
      simp only [List.mem_cons]
      constructor
      · rintro (h | h)
        · exact Or.inl h
        · exact Or.inr (Or.inr h)
      · rintro (h | h | h)
        · exact Or.inl h
        · exact Or.inl (h ▸ hc)
        · exact Or.inr h
    · rw [if_neg hc]
      simp only [List.mem_append, List.mem_singleton, List.mem_cons]
      tauto

theorem nodup_foldl_firstOccurStep : ∀ (cs acc : List Int), acc.Nodup →
    (cs.foldl (fun acc c => if c ∈ acc then acc else acc ++ [c]) acc).Nodup := by
  intro cs
  induction cs with
  | nil => intro acc h; exact h
  | cons c rest ih =>
    intro acc h
    rw [List.foldl_cons]
    by_cases hc : c ∈ acc
    · rw [if_pos hc]
      exact ih acc h
    · rw [if_neg hc]
      refine ih _ ?_
      simp [List.nodup_append, h, hc]

theorem nodup_firstOccur (cs : List Int) : (firstOccur cs).Nodup :=
  nodup_foldl_firstOccurStep cs [] List.nodup_nil

theorem mem_firstOccur (cs : List Int) (a : Int) : a ∈ firstOccur cs ↔ a ∈ cs := by
  unfold firstOccur
  rw [mem_foldl_firstOccurStep]
  simp

theorem lookupCount_of_mem_nodup : ∀ (t : List (Int × Nat)),
    (t.map Prod.fst).Nodup → ∀ p ∈ t, lookupCount t p.1 = p.2 := by
  intro t
  induction t with
  | nil => intro _ p hp; simp at hp
  | cons q rest ih =>
    intro hnd p hp
    obtain ⟨k0, c0⟩ := q
    rw [List.map_cons, List.nodup_cons] at hnd
    rcases List.mem_cons.mp hp with rfl | hp'
    · simp [lookupCount]
    · simp only [lookupCount]
      by_cases hk : k0 = p.1
      · have hmem : p.1 ∈ rest.map Prod.fst := List.mem_map_of_mem Prod.fst hp'
        rw [← hk] at hmem
        exact absurd hmem hnd.1
      · rw [if_neg hk]
        exact ih hnd.2 p hp'

theorem mem_tallyOf_spec (cs : List Int) (p : Int × Nat) (hp : p ∈ tallyOf cs) :
    p.1 ∈ cs ∧ p.2 = countIn cs p.1 := by
  have h1 : p.1 ∈ (tallyOf cs).map Prod.fst := List.mem_map_of_mem Prod.fst hp
  rw [map_fst_tallyOf, mem_firstOccur] at h1
  have hnd : ((tallyOf cs).map Prod.fst).Nodup := by
    rw [map_fst_tallyOf]
    exact nodup_firstOccur cs
  have h2 := lookupCount_of_mem_nodup (tallyOf cs) hnd p hp
  rw [lookupCount_tallyOf] at h2
  exact ⟨h1, h2.symm⟩

theorem countIn_pos_iff (cs : List Int) (a : Int) : a ∈ cs ↔ 0 < countIn cs a := by
  induction cs with
  | nil => simp [countIn]
  | cons c rest ih =>
    by_cases h : c = a
    · subst h
      simp [countIn, List.mem_cons]
    · have hac : ¬ a = c := fun hh => h hh.symm
      simp [countIn, List.mem_cons, h, hac, ih]

theorem countIn_le_length (cs : List Int) (a : Int) : countIn cs a ≤ cs.length := by
  induction cs with
  | nil => simp [countIn]
  | cons c rest ih =>
    by_cases h : c = a <;> simp [countIn, h] <;> omega

theorem sumCounts_updateTally (t : List (Int × Nat)) (c : Int) :
    sumCounts (updateTally t c) = sumCounts t + 1 := by
  induction t with
  | nil => simp [updateTally, sumCounts]
  | cons p rest ih =>
    obtain ⟨k0, c0⟩ := p
    by_cases h : k0 = c
    · simp [updateTally, h, sumCounts]
      omega
    · simp only [updateTally, if_neg h, sumCounts, List.map_cons, List.sum_cons] at ih ⊢
      omega

theorem sumCounts_foldl : ∀ (cs : List Int) (t : List (Int × Nat)),
    sumCounts (cs.foldl updateTally t) = sumCounts t + cs.length := by
  intro cs
  induction cs with
  | nil => intro t; simp
  | cons c rest ih =>
    intro t
    rw [List.foldl_cons, ih, sumCounts_updateTally, List.length_cons]
    omega

theorem sumCounts_tallyOf (cs : List Int) : sumCounts (tallyOf cs) = cs.length := by
  unfold tallyOf
  rw [sumCounts_foldl]
  simp [sumCounts]

theorem pickMostFrequent_spec : ∀ (rest : List (Int × Nat)) (first : Int × Nat),
    pickMostFrequent first rest ∈ first :: rest
  ∧ (∀ q ∈ first :: rest, q.2 ≤ (pickMostFrequent first rest).2) := by
  intro rest
  induction rest with
  | nil =>
    intro first
    refine ⟨List.mem_cons_self _ _, ?_⟩
    intro q hq
    rcases List.mem_cons.mp hq with rfl | hq'
    · exact le_refl _
    · simp at hq'
  | cons c rest' ih =>
    intro first
    have hfold : pickMostFrequent first (c :: rest')
        = pickMostFrequent (if c.2 > first.2 then c else first) rest' := rfl
    by_cases hc : c.2 > first.2
    · rw [hfold, if_pos hc]
      obtain ⟨hmem, hmax⟩ := ih c
      constructor
      · rcases List.mem_cons.mp hmem with h | h
        · rw [h]
          exact List.mem_cons_of_mem _ (List.mem_cons_self _ _)
        · exact List.mem_cons_of_mem _ (List.mem_cons_of_mem _ h)
      · intro q hq
        rcases List.mem_cons.mp hq with rfl | hq'
        · exact le_trans (le_of_lt hc) (hmax c (List.mem_cons_self _ _))
        · exact hmax q hq'
    · rw [hfold, if_neg hc]
      obtain ⟨hmem, hmax⟩ := ih first
      constructor
      · rcases List.mem_cons.mp hmem with h | h
        · rw [h]
          exact List.mem_cons_self _ _
        · exact List.mem_cons_of_mem _ (List.mem_cons_of_mem _ h)
      · intro q hq
        rcases List.mem_cons.mp hq with rfl | hq'
        · exact hmax q (List.mem_cons_self _ _)
        · rcases List.mem_cons.mp hq' with rfl | hq''
          · exact le_trans (le_of_not_lt hc) (hmax first (List.mem_cons_self _ _))
          · exact hmax q (List.mem_cons_of_mem _ hq'')

theorem pickMostFrequent_first : ∀ (rest : List (Int × Nat)) (first : Int × Nat),
    ∃ pre post, first :: rest = pre ++ (pickMostFrequent first rest) :: post
      ∧ ∀ q ∈ pre, q.2 < (pickMostFrequent first rest).2 := by
  intro rest
  induction rest with
  | nil =>
    intro first
    exact ⟨[], [], rfl, by simp⟩
  | cons c rest' ih =>
    intro first
    have hfold : pickMostFrequent first (c :: rest')
        = pickMostFrequent (if c.2 > first.2 then c else first) rest' := rfl
    by_cases hc : c.2 > first.2
    · rw [hfold, if_pos hc]
      obtain ⟨pre, post, hsplit, hlt⟩ := ih c
      refine ⟨first :: pre, post, ?_, ?_⟩
      · rw [List.cons_append, ← hsplit]
      · intro q hq
        rcases List.mem_cons.mp hq with rfl | hq'
        · exact lt_of_lt_of_le hc
            ((pickMostFrequent_spec rest' c).2 c (List.mem_cons_self _ _))
        · exact hlt q hq'
    · rw [hfold, if_neg hc]
      obtain ⟨pre, post, hsplit, hlt⟩ := ih first
      cases pre with
      | nil =>
        rw [List.nil_append] at hsplit
        injection hsplit with h1 h2
        refine ⟨[], c :: rest', ?_, by simp⟩
        rw [List.nil_append, ← h1]
      | cons p0 pre' =>
        rw [List.cons_append] at hsplit
        injection hsplit with h1 h2
        refine ⟨p0 :: c :: pre', post, ?_, ?_⟩
        · rw [List.cons_append, List.cons_append, ← h2, h1]
        · intro q hq
          rcases List.mem_cons.mp hq with rfl | hq'
          · exact hlt q (List.mem_cons_self _ _)
          · rcases List.mem_cons.mp hq' with rfl | hq''
            · have hfirst := hlt p0 (List.mem_cons_self _ _)
              rw [← h1] at hfirst
              exact lt_of_le_of_lt (le_of_not_lt hc) hfirst
            · exact hlt q (List.mem_cons_of_mem _ hq'')

theorem firstIdx_append (l₁ l₂ : List Int) (a : Int) :
    firstIdx (l₁ ++ l₂) a
      = if a ∈ l₁ then firstIdx l₁ a else l₁.length + firstIdx l₂ a := by
  induction l₁ with
  | nil => simp [firstIdx]
  | cons b t ih =>
    by_cases hba : b = a
    · simp [firstIdx, hba, List.mem_cons]
    · have hab : ¬ a = b := fun h => hba h.symm
      simp only [List.cons_append, firstIdx, if_neg hba, ih, List.mem_cons,
        List.length_cons]
      by_cases hat : a ∈ t
      · simp [hat, hab, ih]
      · simp [hat, hab, ih]
        omega

theorem firstIdx_lt_length (l : List Int) (a : Int) (h : a ∈ l) :
    firstIdx l a < l.length := by
  induction l with
  | nil => simp at h
  | cons b t ih =>
    by_cases hba : b = a
    · simp [firstIdx, hba]
    · rcases List.mem_cons.mp h with rfl | h'
      · exact absurd rfl hba
      · simp only [firstIdx, if_neg hba, List.length_cons]
        exact Nat.succ_lt_succ (ih h')

theorem firstOccur_sorted_aux (cs : List Int) : ∀ (rest pref acc : List Int),
    cs = pref ++ rest →
    (∀ a ∈ acc, a ∈ pref) → (∀ a ∈ pref, a ∈ acc) →
    acc.Pairwise (fun a b => firstIdx cs a < firstIdx cs b) →
    (∀ a ∈ acc, firstIdx cs a < pref.length) →
    (rest.foldl (fun acc c => if c ∈ acc then acc else acc ++ [c]) acc).Pairwise
      (fun a b => firstIdx cs a < firstIdx cs b) := by
  intro rest
  induction rest with
  | nil =>
    intro pref acc _ _ _ hpw _
    exact hpw
  | cons c rest' ih =>
    intro pref acc hcs hsub hsup hpw hbound
    rw [List.foldl_cons]
    by_cases hc : c ∈ acc
    · rw [if_pos hc]
      apply ih (pref ++ [c]) acc
      · rw [hcs]
        simp
      · intro a ha
        exact List.mem_append_left _ (hsub a ha)
      · intro a ha
        rcases List.mem_append.mp ha with h | h
        · exact hsup a h
        · rw [List.mem_singleton] at h
          subst h
          exact hc
      · exact hpw
      · intro a ha
        have h1 := hbound a ha
        have h2 : pref.length ≤ (pref ++ [c]).length := by simp
        omega
    · rw [if_neg hc]
      have hcpref : c ∉ pref := fun h => hc (hsup c h)
      have hfc : firstIdx cs c = pref.length := by
        rw [hcs, firstIdx_append, if_neg hcpref]
        simp [firstIdx]
      apply ih (pref ++ [c]) (acc ++ [c])
      · rw [hcs]
        simp
      · intro a ha
        rcases List.mem_append.mp ha with h | h
        · exact List.mem_append_left _ (hsub a h)
        · exact List.mem_append_right _ h
      · intro a ha
        rcases List.mem_append.mp ha with h | h
        · exact List.mem_append_left _ (hsup a h)
        · exact List.mem_append_right _ h
      · rw [List.pairwise_append]
        refine ⟨hpw, List.pairwise_singleton _ _, ?_⟩
        intro a ha b hb
        rw [List.mem_singleton] at hb
        subst hb
        rw [hfc]
        exact hbound a ha
      · intro a ha
        rcases List.mem_append.mp ha with h | h
        · have h1 := hbound a h
          have h2 : pref.length ≤ (pref ++ [c]).length := by simp
          omega
        · rw [List.mem_singleton] at h
          subst h
          rw [hfc]
          simp

theorem firstOccur_sorted (cs : List Int) :
    (firstOccur cs).Pairwise (fun a b => firstIdx cs a < firstIdx cs b) := by
  unfold firstOccur
  exact firstOccur_sorted_aux cs cs [] [] rfl (by simp) (by simp) (by simp) (by simp)

/-- C8: an interpolation error in one combination never aborts the whole
recovery: the failing combination is simply missing from the candidate list,
every successful combination contributes exactly one tally unit (the tally
counts sum to the number of surviving candidates), recovery fails exactly when
no combination produced a candidate, and the only error recovery can surface
is NoValidCandidates. -/
theorem recover_error_characterization (roots : List Point) (k : Nat) :
    (findSecretWithMinimumRoots roots k = Except.error JsError.noValidCandidates
      ↔ candidatesOf roots k = [])
  ∧ (∀ e, findSecretWithMinimumRoots roots k = Except.error e
      → e = JsError.noValidCandidates)
  ∧ sumCounts (tallyOf (candidatesOf roots k)) = (candidatesOf roots k).length := by
  refine ⟨?_, ?_, sumCounts_tallyOf _⟩
  · cases htal : tallyOf (candidatesOf roots k) with
    | nil =>
      rw [findSecret_eq_error roots k htal]
      simp [(tallyOf_eq_nil_iff _).mp htal]
    | cons first rest =>
      rw [findSecret_eq_ok roots k first rest htal]
      constructor
      · intro h
        exact absurd h (by simp)
      · intro h
        rw [(tallyOf_eq_nil_iff _).mpr h] at htal
        exact absurd htal (by simp)
  · intro e he
    cases htal : tallyOf (candidatesOf roots k) with
    | nil =>
      rw [findSecret_eq_error roots k htal] at he
      injection he with h2
      exact h2.symm
    | cons first rest =>
      rw [findSecret_eq_ok roots k first rest htal] at he
      exact absurd he (by simp)

/-- Witness for C8: two shares with the same x-value make the single size-2
subset fail interpolation, so the candidate list is empty and recovery fails
with NoValidCandidates. -/
theorem recover_error_characterization_witness :
    candidatesOf [Point.mk 1 1, Point.mk 1 2] 2 = []
  ∧ findSecretWithMinimumRoots [Point.mk 1 1, Point.mk 1 2] 2
      = Except.error JsError.noValidCandidates :=
  ⟨by decide,
   (recover_error_characterization [Point.mk 1 1, Point.mk 1 2] 2).1.mpr (by decide)⟩

/-- C3: when recovery succeeds, the returned secret is a candidate whose tally
count is maximal among all candidates, and any candidate tied at the maximal
count first appears in the candidate sequence (the enumeration order of the
producing subsets) no earlier than the returned secret. -/
theorem recover_majority_tiebreak (roots : List Point) (k : Nat)
    (r : RecoveryResult) (h : findSecretWithMinimumRoots roots k = Except.ok r) :
    r.secret ∈ candidatesOf roots k
  ∧ (∀ c ∈ candidatesOf roots k,
      countIn (candidatesOf roots k) c ≤ countIn (candidatesOf roots k) r.secret)
  ∧ (∀ c ∈ candidatesOf roots k,
      countIn (candidatesOf roots k) c = countIn (candidatesOf roots k) r.secret →
      firstIdx (candidatesOf roots k) r.secret ≤ firstIdx (candidatesOf roots k) c) := by
  cases htal : tallyOf (candidatesOf roots k) with
  | nil =>
    rw [findSecret_eq_error roots k htal] at h
    exact absurd h (by simp)
  | cons first rest =>
    rw [findSecret_eq_ok roots k first rest htal] at h
    injection h with h'
    subst h'
    have hpickmem := (pickMostFrequent_spec rest first).1
    have hpickmax := (pickMostFrequent_spec rest first).2
    have hspec := mem_tallyOf_spec (candidatesOf roots k)
      (pickMostFrequent first rest) (htal ▸ hpickmem)
    refine ⟨hspec.1, ?_, ?_⟩
    · intro c hc
      have hck : c ∈ (tallyOf (candidatesOf roots k)).map Prod.fst := by
        rw [map_fst_tallyOf, mem_firstOccur]
        exact hc
      obtain ⟨p, hp, hpc⟩ := List.mem_map.mp hck
      have hpspec := mem_tallyOf_spec (candidatesOf roots k) p hp
      rw [hpc] at hpspec
      have hple : p.2 ≤ (pickMostFrequent first rest).2 := by
        apply hpickmax
        rw [← htal]
        exact hp
      rw [← hpspec.2, ← hspec.2]
      exact hple
    · intro c hc hceq
      obtain ⟨pre, post, hsplit, hlt⟩ := pickMostFrequent_first rest first
      have hck : c ∈ (tallyOf (candidatesOf roots k)).map Prod.fst := by
        rw [map_fst_tallyOf, mem_firstOccur]
        exact hc
      obtain ⟨p, hp, hpc⟩ := List.mem_map.mp hck
      have hpspec := mem_tallyOf_spec (candidatesOf roots k) p hp
      rw [hpc] at hpspec
      have hp2 : p.2 = (pickMostFrequent first rest).2 := by
        rw [hpspec.2, hceq, ← hspec.2]
      have hp' : p ∈ pre ++ (pickMostFrequent first rest) :: post := by
        rw [← hsplit]
        rw [htal] at hp
        exact hp
      rcases List.mem_append.mp hp' with hpre | hrest
      · have := hlt p hpre
        omega
      · rcases List.mem_cons.mp hrest with heq | hpost
        · rw [← hpc, heq]
        · have hpw : ((tallyOf (candidatesOf roots k)).map Prod.fst).Pairwise
              (fun a b => firstIdx (candidatesOf roots k) a
                < firstIdx (candidatesOf roots k) b) := by
            rw [map_fst_tallyOf]
            exact firstOccur_sorted (candidatesOf roots k)
          rw [htal, hsplit, List.map_append, List.map_cons] at hpw
          have hcross := (List.pairwise_cons.mp (List.pairwise_append.mp hpw).2.1).1
            p.1 (List.mem_map_of_mem Prod.fst hpost)
          rw [hpc] at hcross
          exact le_of_lt hcross

/-- Witness for C3 at the four-point input where the tally is 0 three times
and -1 once. -/
theorem recover_majority_tiebreak_witness :
    (0 : Int) ∈ candidatesOf [Point.mk 1 1, Point.mk 2 4, Point.mk 3 9, Point.mk 4 16] 3
  ∧ (∀ c ∈ candidatesOf [Point.mk 1 1, Point.mk 2 4, Point.mk 3 9, Point.mk 4 16] 3,
      countIn (candidatesOf [Point.mk 1 1, Point.mk 2 4, Point.mk 3 9, Point.mk 4 16] 3) c
        ≤ countIn (candidatesOf [Point.mk 1 1, Point.mk 2 4, Point.mk 3 9, Point.mk 4 16] 3) 0)
  ∧ (∀ c ∈ candidatesOf [Point.mk 1 1, Point.mk 2 4, Point.mk 3 9, Point.mk 4 16] 3,
      countIn (candidatesOf [Point.mk 1 1, Point.mk 2 4, Point.mk 3 9, Point.mk 4 16] 3) c
        = countIn (candidatesOf [Point.mk 1 1, Point.mk 2 4, Point.mk 3 9, Point.mk 4 16] 3) 0 →
      firstIdx (candidatesOf [Point.mk 1 1, Point.mk 2 4, Point.mk 3 9, Point.mk 4 16] 3) 0
        ≤ firstIdx (candidatesOf [Point.mk 1 1, Point.mk 2 4, Point.mk 3 9, Point.mk 4 16] 3) c) :=
  recover_majority_tiebreak [Point.mk 1 1, Point.mk 2 4, Point.mk 3 9, Point.mk 4 16] 3
    (RecoveryResult.mk 0 3 4) (by decide)

/-- C10: when recovery succeeds, the reported frequency is the tally count of
the returned secret, lies between 1 and the total number of combinations, and
no candidate in the tally has a strictly greater count. -/
theorem recover_result_invariants (roots : List Point) (k : Nat)
    (r : RecoveryResult) (h : findSecretWithMinimumRoots roots k = Except.ok r) :
    1 ≤ r.frequency
  ∧ r.frequency ≤ r.totalCombinations
  ∧ r.frequency = countIn (candidatesOf roots k) r.secret
  ∧ (∀ p ∈ tallyOf (candidatesOf roots k), p.2 ≤ r.frequency) := by
  cases htal : tallyOf (candidatesOf roots k) with
  | nil =>
    rw [findSecret_eq_error roots k htal] at h
    exact absurd h (by simp)
  | cons first rest =>
    rw [findSecret_eq_ok roots k first rest htal] at h
    injection h with h'
    subst h'
    have hfreq : lookupCount (first :: rest) (pickMostFrequent first rest).1
        = countIn (candidatesOf roots k) (pickMostFrequent first rest).1 := by
      rw [← htal, lookupCount_tallyOf]
    have hpickmem := (pickMostFrequent_spec rest first).1
    have hpickmax := (pickMostFrequent_spec rest first).2
    have hspec := mem_tallyOf_spec (candidatesOf roots k)
      (pickMostFrequent first rest) (htal ▸ hpickmem)
    refine ⟨?_, ?_, hfreq, ?_⟩
    · show (1 : Nat) ≤ lookupCount (first :: rest) (pickMostFrequent first rest).1
      rw [hfreq]
      have h1 := (countIn_pos_iff (candidatesOf roots k)
        (pickMostFrequent first rest).1).mp hspec.1
      omega
    · show lookupCount (first :: rest) (pickMostFrequent first rest).1
        ≤ (generateCombinations roots k).length
      rw [hfreq]
      calc countIn (candidatesOf roots k) (pickMostFrequent first rest).1
          ≤ (candidatesOf roots k).length := countIn_le_length _ _
        _ ≤ (generateCombinations roots k).length := by
            unfold candidatesOf
            exact List.length_filterMap_le _ _
    · intro p hp
      show p.2 ≤ lookupCount (first :: rest) (pickMostFrequent first rest).1
      rw [hfreq, ← hspec.2]
      exact hpickmax p hp

/-- Witness for C10 at a two-point input with a single subset. -/
theorem recover_result_invariants_witness :
    1 ≤ (RecoveryResult.mk 0 1 1).frequency
  ∧ (RecoveryResult.mk 0 1 1).frequency ≤ (RecoveryResult.mk 0 1 1).totalCombinations
  ∧ (RecoveryResult.mk 0 1 1).frequency
      = countIn (candidatesOf [Point.mk 1 1, Point.mk 2 2] 2) (RecoveryResult.mk 0 1 1).secret
  ∧ (∀ p ∈ tallyOf (candidatesOf [Point.mk 1 1, Point.mk 2 2] 2),
      p.2 ≤ (RecoveryResult.mk 0 1 1).frequency) :=
  recover_result_invariants [Point.mk 1 1, Point.mk 2 2] 2
    (RecoveryResult.mk 0 1 1) (by decide)

theorem getD_replicate_zero (m j : Nat) :
    (List.replicate m (0 : Int)).getD j 0 = 0 := by
  simp only [List.getD_eq_getElem?_getD, List.getElem?_replicate]
  split <;> rfl

theorem getD_zeros_cons (m i : Nat) :
    ((0 : Int) :: List.replicate m 0).getD i 0 = 0 := by
  cases i with
  | zero => rfl
  | succ i' =>
    rw [List.getD_cons_succ]
    exact getD_replicate_zero m i'

theorem set_cons_replicate_zero (c : Int) (m j : Nat) (hj : 1 ≤ j) :
    (c :: List.replicate m (0 : Int)).set j 0 = c :: List.replicate m 0 := by
  obtain ⟨j', rfl⟩ : ∃ j', j = j' + 1 := ⟨j - 1, by omega⟩
  rw [List.set_cons_succ, List.set_replicate_self]

theorem foldl_zeroSets (c : Int) (m : Nat) : ∀ (ks : List Nat), (∀ k ∈ ks, 1 ≤ k) →
    ks.foldl (fun temp k => (temp.set (k + 1) 0).set k (0 : Int))
      (c :: List.replicate m 0) = c :: List.replicate m 0 := by
  intro ks
  induction ks with
  | nil => intro _; rfl
  | cons k t ih =>
    intro hk
    rw [List.foldl_cons,
      set_cons_replicate_zero c m (k + 1) (by omega),
      set_cons_replicate_zero c m k (hk k (List.mem_cons_self _ _))]
    exact ih (fun k' hk' => hk k' (List.mem_cons_of_mem _ hk'))

theorem polyMulStep_cons_zeros (n : Nat) (hn : 3 ≤ n) (c xj : Int) :
    polyMulStep n (c :: List.replicate (n - 1) 0) xj
      = (c * (-xj)) :: List.replicate (n - 1) 0 := by
  obtain ⟨m, rfl⟩ : ∃ m, n = m + 3 := ⟨n - 3, by omega⟩
  unfold polyMulStep
  have hr : List.range (m + 3 - 1) = [0, 1] ++ (List.range m).map (fun i => 2 + i) := by
    have h2 : m + 3 - 1 = 2 + m := by omega
    rw [h2, List.range_add, show List.range 2 = [0, 1] from by decide]
  have hrep : List.replicate (m + 3) (0 : Int) = 0 :: 0 :: 0 :: List.replicate m 0 := by
    simp [List.replicate_succ]
  have hrep1 : List.replicate (m + 3 - 1) (0 : Int) = 0 :: 0 :: List.replicate m 0 := by
    simp [List.replicate_succ]
  rw [hr, List.foldl_append, hrep1, hrep]
  simp only [List.foldl_cons, List.foldl_nil, List.getD_cons_zero, List.getD_cons_succ,
    List.set_cons_succ, List.set_cons_zero, zero_mul]
  rw [List.foldl_ext _ (fun temp k => (temp.set (k + 1) 0).set k (0 : Int)) _
    (by
      intro temp k hk
      rw [List.mem_map] at hk
      obtain ⟨i, _, rfl⟩ := hk
      rw [Nat.add_comm 2 i, List.getD_cons_succ, List.getD_cons_succ, getD_zeros_cons,
        zero_mul])]
  rw [show ((0 : Int) :: 0 :: List.replicate m 0) = List.replicate (m + 2) 0 from by
    simp [List.replicate_succ]]
  rw [foldl_zeroSets (c * (-xj)) (m + 2) _
    (by
      intro k hk
      rw [List.mem_map] at hk
      obtain ⟨i, _, rfl⟩ := hk
      omega)]

theorem polyMulStep_two (b0 b1 xj : Int) :
    polyMulStep 2 [b0, b1] xj = [b0 * (-xj), b0] := rfl

theorem e0_eq (n : Nat) (hn : 1 ≤ n) :
    ((List.replicate n (0 : Int)).set 0 1) = 1 :: List.replicate (n - 1) 0 := by
  obtain ⟨m, rfl⟩ : ∃ m, n = m + 1 := ⟨n - 1, by omega⟩
  simp [List.replicate_succ]

theorem foldl_polyMulStep_invariant (n : Nat) (hn : 3 ≤ n) : ∀ (ys : List Int) (c : Int),
    ys.foldl (fun b x => polyMulStep n b x) (c :: List.replicate (n - 1) 0)
      = (c * ((ys.map (fun x => -x)).prod)) :: List.replicate (n - 1) 0 := by
  intro ys
  induction ys with
  | nil => intro c; simp
  | cons y t ih =>
    intro c
    rw [List.foldl_cons, polyMulStep_cons_zeros n hn c y, ih (c * (-y))]
    simp [mul_assoc]

theorem foldl_polyMulStep_closed (n : Nat) (hn : 1 ≤ n) (xs : List Int)
    (hlen : xs.length = n - 1) :
    xs.foldl (fun b x => polyMulStep n b x) ((List.replicate n 0).set 0 1)
      = basisClosedForm n ((xs.map (fun x => -x)).prod) := by
  rcases Nat.lt_or_ge n 3 with h3 | h3
  · interval_cases n
    · obtain rfl : xs = [] := List.length_eq_zero.mp (by omega)
      simp [basisClosedForm]
    · obtain ⟨x, rfl⟩ : ∃ x, xs = [x] := List.length_eq_one.mp (by omega)
      rw [show ((List.replicate 2 (0 : Int)).set 0 1) = [1, 0] from rfl]
      rw [List.foldl_cons, List.foldl_nil, polyMulStep_two]
      simp [basisClosedForm]
  · rw [e0_eq n (by omega), foldl_polyMulStep_invariant n h3 xs 1, one_mul]
    unfold basisClosedForm
    rw [if_neg (by omega), if_neg (by omega), if_neg (by omega)]

theorem foldl_enumFrom_shift {α β : Type} (f : β → α → β) (i : Nat) :
    ∀ (t : List α) (k : Nat) (init : β),
    (List.enumFrom (k + 1) t).foldl
        (fun acc ja => if i + 1 = ja.1 then acc else f acc ja.2) init
      = (List.enumFrom k t).foldl
        (fun acc ja => if i = ja.1 then acc else f acc ja.2) init := by
  intro t
  induction t with
  | nil => intro k init; rfl
  | cons a t' ih =>
    intro k init
    show (List.enumFrom (k + 2) t').foldl _ (if i + 1 = k + 1 then init else f init a)
      = (List.enumFrom (k + 1) t').foldl _ (if i = k then init else f init a)
    by_cases hik : i = k
    · rw [if_pos (by omega), if_pos hik]
      exact ih (k + 1) init
    · rw [if_neg (by omega), if_neg hik]
      exact ih (k + 1) (f init a)

theorem foldl_enumFrom_noskip {α β : Type} (f : β → α → β) (i : Nat) :
    ∀ (t : List α) (k : Nat) (init : β), i < k →
    (List.enumFrom k t).foldl
        (fun acc ja => if i = ja.1 then acc else f acc ja.2) init
      = t.foldl f init := by
  intro t
  induction t with
  | nil => intro k init _; rfl
  | cons a t' ih =>
    intro k init hik
    show (List.enumFrom (k + 1) t').foldl _ (if i = k then init else f init a)
      = t'.foldl f (f init a)
    rw [if_neg (by omega)]
    exact ih (k + 1) (f init a) (by omega)

theorem foldl_enum_skip {α β : Type} (f : β → α → β) :
    ∀ (l : List α) (i : Nat) (init : β), i < l.length →
    l.enum.foldl (fun acc ja => if i = ja.1 then acc else f acc ja.2) init
      = (l.eraseIdx i).foldl f init := by
  intro l
  induction l with
  | nil => intro i init h; simp at h
  | cons a t ih =>
    intro i init hi
    cases i with
    | zero =>
      show (List.enumFrom 1 t).foldl _ (if 0 = 0 then init else f init a)
        = (List.eraseIdx (a :: t) 0).foldl f init
      rw [if_pos rfl, List.eraseIdx_cons_zero]
      exact foldl_enumFrom_noskip f 0 t 1 init (by omega)
    | succ i' =>
      show (List.enumFrom 1 t).foldl _ (if i' + 1 = 0 then init else f init a)
        = (List.eraseIdx (a :: t) (i' + 1)).foldl f init
      rw [if_neg (by omega), List.eraseIdx_cons_succ, List.foldl_cons]
      rw [show (1 : Nat) = 0 + 1 from rfl, foldl_enumFrom_shift f i' t 0 (f init a)]
      exact ih i' (f init a) (by simp at hi; omega)

theorem mem_enumFrom_spec {α : Type} : ∀ (l : List α) (k : Nat) (ip : Nat × α),
    ip ∈ List.enumFrom k l →
    k ≤ ip.1 ∧ ip.1 - k < l.length ∧ l.get? (ip.1 - k) = some ip.2 := by
  intro l
  induction l with
  | nil => intro k ip h; simp [List.enumFrom] at h
  | cons a t ih =>
    intro k ip h
    rcases List.mem_cons.mp h with rfl | h'
    · refine ⟨le_refl _, by simp, ?_⟩
      simp
    · obtain ⟨h1, h2, h3⟩ := ih (k + 1) ip h'
      refine ⟨by omega, by simp; omega, ?_⟩
      have harith : ip.1 - k = (ip.1 - (k + 1)) + 1 := by omega
      rw [harith]
      simpa using h3

theorem mem_enum_spec {α : Type} (l : List α) (ip : Nat × α) (h : ip ∈ l.enum) :
    ip.1 < l.length ∧ l.get? ip.1 = some ip.2 := by
  obtain ⟨_, h2, h3⟩ := mem_enumFrom_spec l 0 ip h
  rw [Nat.sub_zero] at h2 h3
  exact ⟨h2, h3⟩

theorem eraseIdx_eq_erase_of_nodup : ∀ (l : List Point) (i : Nat) (p : Point),
    l.Nodup → l.get? i = some p → l.eraseIdx i = l.erase p := by
  intro l
  induction l with
  | nil => intro i p _ h; simp at h
  | cons a t ih =>
    intro i p hnd hget
    cases i with
    | zero =>
      simp only [List.get?_cons_zero, Option.some.injEq] at hget
      subst hget
      rw [List.eraseIdx_cons_zero, List.erase_cons_head]
    | succ i' =>
      simp only [List.get?_cons_succ] at hget
      have hpt : p ∈ t := List.get?_mem hget
      have hap : ¬ (a == p) = true := by
        simp only [beq_iff_eq]
        intro hap
        exact (List.nodup_cons.mp hnd).1 (hap ▸ hpt)
      rw [List.eraseIdx_cons_succ, List.erase_cons_tail hap,
        ih i' p (List.nodup_cons.mp hnd).2 hget]

theorem get_not_mem_eraseIdx {α : Type} : ∀ (l : List α) (i : Nat) (a : α),
    l.Nodup → l.get? i = some a → a ∉ l.eraseIdx i := by
  intro l
  induction l with
  | nil => intro i a _ h; simp at h
  | cons b t ih =>
    intro i a hnd hget
    cases i with
    | zero =>
      simp only [List.get?_cons_zero, Option.some.injEq] at hget
      subst hget
      rw [List.eraseIdx_cons_zero]
      exact (List.nodup_cons.mp hnd).1
    | succ i' =>
      simp only [List.get?_cons_succ] at hget
      rw [List.eraseIdx_cons_succ]
      intro hmem
      rcases List.mem_cons.mp hmem with rfl | hmem'
      · exact (List.nodup_cons.mp hnd).1 (List.get?_mem hget)
      · exact ih i' a (List.nodup_cons.mp hnd).2 hget hmem'

theorem map_eraseIdx {α β : Type} (f : α → β) : ∀ (l : List α) (i : Nat),
    (l.eraseIdx i).map f = (l.map f).eraseIdx i := by
  intro l
  induction l with
  | nil => intro i; simp
  | cons a t ih =>
    intro i
    cases i with
    | zero => simp
    | succ i' =>
      rw [List.eraseIdx_cons_succ, List.map_cons, List.map_cons,
        List.eraseIdx_cons_succ, ih i']

theorem basisDenom_split (n i : Nat) (xi : Int) :
    ∀ (el : List (Nat × Point)) (b : List Int) (c : Int),
    el.foldl (fun acc jp => if i = jp.1 then acc
        else (polyMulStep n acc.1 jp.2.x, acc.2 * (xi - jp.2.x))) (b, c)
      = (el.foldl (fun acc jp => if i = jp.1 then acc else polyMulStep n acc jp.2.x) b,
         el.foldl (fun acc jp => if i = jp.1 then acc else acc * (xi - jp.2.x)) c) := by
  intro el
  induction el with
  | nil => intro b c; rfl
  | cons jp t ih =>
    intro b c
    simp only [List.foldl_cons]
    by_cases h : i = jp.1
    · rw [if_pos h, if_pos h, if_pos h]
      exact ih b c
    · rw [if_neg h, if_neg h, if_neg h]
      exact ih _ _

theorem basisDenomOf_eval (l : List Point) (ip : Nat × Point) (hip : ip.1 < l.length) :
    basisDenomOf l ip
      = (basisClosedForm l.length ((l.eraseIdx ip.1).map (fun q => -q.x)).prod,
         ((l.eraseIdx ip.1).map (fun q => ip.2.x - q.x)).prod) := by
  unfold basisDenomOf
  rw [basisDenom_split l.length ip.1 ip.2.x l.enum
    ((List.replicate l.length 0).set 0 1) 1]
  have hskip1 : l.enum.foldl
      (fun acc jp => if ip.1 = jp.1 then acc else polyMulStep l.length acc jp.2.x)
      ((List.replicate l.length 0).set 0 1)
      = (l.eraseIdx ip.1).foldl (fun acc q => polyMulStep l.length acc q.x)
        ((List.replicate l.length 0).set 0 1) :=
    foldl_enum_skip (fun acc q => polyMulStep l.length acc q.x) l ip.1 _ hip
  have hskip2 : l.enum.foldl
      (fun acc jp => if ip.1 = jp.1 then acc else acc * (ip.2.x - jp.2.x)) 1
      = (l.eraseIdx ip.1).foldl (fun acc q => acc * (ip.2.x - q.x)) 1 :=
    foldl_enum_skip (fun acc q => acc * (ip.2.x - q.x)) l ip.1 1 hip
  rw [hskip1, hskip2]
  have hlen1 : 1 ≤ l.length := by omega
  have herlen : ((l.eraseIdx ip.1).map Point.x).length = l.length - 1 := by
    rw [List.length_map, List.length_eraseIdx, if_pos hip]
  have hfold1 : (l.eraseIdx ip.1).foldl (fun acc q => polyMulStep l.length acc q.x)
      ((List.replicate l.length 0).set 0 1)
      = ((l.eraseIdx ip.1).map Point.x).foldl (fun b x => polyMulStep l.length b x)
        ((List.replicate l.length 0).set 0 1) := by
    rw [List.foldl_map]
  rw [hfold1, foldl_polyMulStep_closed l.length hlen1 _ herlen, List.map_map]
  congr 1
  rw [List.prod_eq_foldl, List.foldl_map]

theorem foldlM_except_ok {ε β α : Type} (f : β → α → Except ε β) (g : β → α → β) :
    ∀ (l : List α) (init : β), (∀ a ∈ l, ∀ b, f b a = Except.ok (g b a)) →
    l.foldlM f init = Except.ok (l.foldl g init) := by
  intro l
  induction l with
  | nil => intro init _; rfl
  | cons a t ih =>
    intro init h
    rw [List.foldlM_cons, h a (List.mem_cons_self _ _) init]
    show t.foldlM f (g init a) = Except.ok (t.foldl g (g init a))
    exact ih (g init a) (fun a' h' b => h a' (List.mem_cons_of_mem _ h') b)

theorem denom_ne_zero (l : List Point) (hnd : (l.map Point.x).Nodup)
    (ip : Nat × Point) (hip : ip ∈ l.enum) :
    ((l.eraseIdx ip.1).map (fun q => ip.2.x - q.x)).prod ≠ 0 := by
  obtain ⟨hlt, hget⟩ := mem_enum_spec l ip hip
  rw [Ne, List.prod_eq_zero_iff]
  intro hzero
  rw [List.mem_map] at hzero
  obtain ⟨q, hq, hq0⟩ := hzero
  have hqx : q.x ≠ ip.2.x := by
    intro heq
    have hmem : q.x ∈ (l.eraseIdx ip.1).map Point.x := List.mem_map_of_mem Point.x hq
    rw [map_eraseIdx Point.x l ip.1] at hmem
    have hgetx : (l.map Point.x).get? ip.1 = some ip.2.x := by
      rw [List.get?_map, hget]
      rfl
    exact get_not_mem_eraseIdx (l.map Point.x) ip.1 ip.2.x hnd hgetx (heq ▸ hmem)
  exact hqx (sub_eq_zero.mp hq0).symm

theorem lagrangeStep_eval (l : List Point) (hnd : (l.map Point.x).Nodup)
    (ip : Nat × Point) (hip : ip ∈ l.enum) (coeffs : List Int) :
    lagrangeStep l coeffs ip
      = Except.ok (vecAdd coeffs (contribClosed l.length ip.2 (l.eraseIdx ip.1))) := by
  obtain ⟨hlt, _⟩ := mem_enum_spec l ip hip
  unfold lagrangeStep
  rw [basisDenomOf_eval l ip hlt]
  rw [if_neg (denom_ne_zero l hnd ip hip)]
  unfold contribClosed vecAdd
  rw [List.zipWith_map_right]

theorem performLagrange_closed (l : List Point) (hnd : (l.map Point.x).Nodup) :
    performLagrangeInterpolation l = Except.ok (lagrangeClosed l) := by
  unfold performLagrangeInterpolation
  rw [foldlM_except_ok (lagrangeStep l)
    (fun coeffs ip => vecAdd coeffs (contribClosed l.length ip.2 (l.eraseIdx ip.1)))
    l.enum (List.replicate l.length 0)
    (fun ip hip coeffs => lagrangeStep_eval l hnd ip hip coeffs)]
  congr 1
  unfold lagrangeClosed
  rw [List.foldl_map]
  have hrhs : l.enum.foldl
      (fun acc ip => vecAdd acc (contribClosed l.length ip.2 (l.erase ip.2)))
      (List.replicate l.length 0)
      = (l.enum.map Prod.snd).foldl
        (fun acc p => vecAdd acc (contribClosed l.length p (l.erase p)))
        (List.replicate l.length 0) :=
    (List.foldl_map Prod.snd
      (fun acc p => vecAdd acc (contribClosed l.length p (l.erase p)))
      l.enum (List.replicate l.length 0)).symm
  rw [List.enum_map_snd] at hrhs
  rw [← hrhs]
  apply List.foldl_ext
  intro acc ip hip
  obtain ⟨hlt, hget⟩ := mem_enum_spec l ip hip
  rw [eraseIdx_eq_erase_of_nodup l ip.1 ip.2 (List.Nodup.of_map Point.x hnd) hget]

theorem vecAdd_right_comm : ∀ (z a b : List Int),
    vecAdd (vecAdd z a) b = vecAdd (vecAdd z b) a := by
  intro z
  induction z with
  | nil => intro a b; rfl
  | cons z0 zt ih =>
    intro a b
    cases a with
    | nil => cases b <;> rfl
    | cons a0 at' =>
      cases b with
      | nil => rfl
      | cons b0 bt =>
        simp only [vecAdd, List.zipWith_cons_cons]
        rw [show z0 + a0 + b0 = z0 + b0 + a0 from by ring]
        exact congrArg _ (ih at' bt)

theorem foldl_vecAdd_perm {A B : List (List Int)} (h : A.Perm B) :
    ∀ z, A.foldl vecAdd z = B.foldl vecAdd z := by
  induction h with
  | nil => intro z; rfl
  | cons x _ ih =>
    intro z
    rw [List.foldl_cons, List.foldl_cons]
    exact ih _
  | swap x y t =>
    intro z
    simp only [List.foldl_cons]
    rw [vecAdd_right_comm]
  | trans _ _ ih1 ih2 =>
    intro z
    rw [ih1 z, ih2 z]

theorem contribClosed_perm (n : Nat) (p : Point) {o o' : List Point} (h : o.Perm o') :
    contribClosed n p o = contribClosed n p o' := by
  unfold contribClosed
  rw [(h.map (fun q => -q.x)).prod_eq, (h.map (fun q => p.x - q.x)).prod_eq]

theorem lagrangeClosed_perm (l l' : List Point) (hperm : l.Perm l') :
    lagrangeClosed l = lagrangeClosed l' := by
  unfold lagrangeClosed
  have hn : l.length = l'.length := hperm.length_eq
  rw [← hn]
  have hmap : l'.map (fun p => contribClosed l.length p (l'.erase p))
      = l'.map (fun p => contribClosed l.length p (l.erase p)) :=
    List.map_congr_left (fun p _ => contribClosed_perm l.length p ((hperm.erase p).symm))
  rw [hmap]
  exact foldl_vecAdd_perm
    (hperm.map (fun p => contribClosed l.length p (l.erase p))) _

/-- C7: two lists holding the same points in different orders, with pairwise
distinct x-values, interpolate to identical coefficient vectors: each point's
truncated contribution depends only on the set of other points, and the
coefficient accumulation is a commutative vector sum. -/
theorem interpolation_permutation_invariant (l l' : List Point)
    (hperm : l.Perm l') (hnd : (l.map Point.x).Nodup) :
    performLagrangeInterpolation l = performLagrangeInterpolation l' := by
  have hnd' : (l'.map Point.x).Nodup := ((hperm.map Point.x).nodup_iff).mp hnd
  rw [performLagrange_closed l hnd, performLagrange_closed l' hnd',
    lagrangeClosed_perm l l' hperm]

/-- Witness for C7 at a two-point permutation pair. -/
theorem interpolation_permutation_invariant_witness :
    ([Point.mk 1 2, Point.mk 3 4].Perm [Point.mk 3 4, Point.mk 1 2])
  ∧ (([Point.mk 1 2, Point.mk 3 4].map Point.x).Nodup)
  ∧ performLagrangeInterpolation [Point.mk 1 2, Point.mk 3 4]
      = performLagrangeInterpolation [Point.mk 3 4, Point.mk 1 2] :=
  ⟨by decide, by decide,
   interpolation_permutation_invariant [Point.mk 1 2, Point.mk 3 4]
     [Point.mk 3 4, Point.mk 1 2] (by decide) (by decide)⟩
